import Mathlib

/-!
Verification of the move-decision engine of a grid-based light-cycle bot.

The engine is embedded shallowly: the C++ client's pure decision functions
(`is_valid_move`, `findBestMove`, `findSafeDirection`, `decideAggressiveMove`,
`predictOpponentMove`, `calculateAccessibleArea`, `decideMove`,
`receiveGameState`, `sendMove`) become Lean functions over an explicit
`GameState`; the per-tick mutable fields of the `BotClient` class become a
structure threaded through `receiveGameState`/`sendMove`.

Cells are integer pairs (`ℤ × ℤ`, the embedding of `sf::Vector2i`), grid
occupancy markers are integers (0 = empty), and scores are integers.
-/

namespace Cycles

/-- Modelled from the spec: the Direction vocabulary (§4.2), the four cardinal
directions in the fixed {North, East, South, West} enumeration order used by
every loop in the client. The enum itself lives in the game API header, which
is not part of the client sources. -/
inductive Direction : Type
  | north
  | east
  | south
  | west
deriving DecidableEq, Repr, Fintype

/-- Modelled from the spec: `vectorOf` (§4.2) — the fixed unit cell delta of
each direction (`getDirectionVector` of the game API). The exact deltas are
the four cardinal unit vectors; the spec fixes only that the mapping is a
constant bijection onto them. -/
def getDirectionVector : Direction → ℤ × ℤ
  | Direction.north => (0, -1)
  | Direction.east => (1, 0)
  | Direction.south => (0, 1)
  | Direction.west => (-1, 0)

/-- Modelled from the spec: `codeOf` (§4.2) — the stable small integer code of
each direction (`getDirectionValue` of the game API), used only for externally
reporting the previous move. -/
def getDirectionValue : Direction → ℤ
  | Direction.north => 0
  | Direction.east => 1
  | Direction.south => 2
  | Direction.west => 3

/-- The fixed {North, East, South, West} iteration order used by every
`for (auto dir : {Direction::north, ...})` loop in the client. -/
def dirList : List Direction :=
  [Direction.north, Direction.east, Direction.south, Direction.west]

/-- Modelled from the spec: a Player (§3) — identity name plus current head
position. Other fields of the API's `Player` are never read by the client. -/
structure Player where
  name : String
  position : ℤ × ℤ
deriving DecidableEq, Repr

/-- Modelled from the spec: a GameState snapshot (§3) — the rectangular
occupancy grid (width × height, marker 0 = empty, non-zero = occupied) plus
the ordered collection of all players. The grid is embedded as a total
function on integer cells; only in-bounds cells are meaningful (§4.1), which
is itself verified below. -/
structure GameState where
  gridWidth : ℤ
  gridHeight : ℤ
  grid : ℤ × ℤ → ℤ
  players : List Player

/-- Modelled from the spec: `isInsideGrid` (§4.1) — true iff
0 ≤ x < width and 0 ≤ y < height. -/
abbrev GameState.isInsideGrid (st : GameState) (c : ℤ × ℤ) : Prop :=
  0 ≤ c.1 ∧ c.1 < st.gridWidth ∧ 0 ≤ c.2 ∧ c.2 < st.gridHeight

/-- A passable cell (spec glossary): inside grid bounds and unoccupied. -/
abbrev passableCell (st : GameState) (c : ℤ × ℤ) : Prop :=
  st.isInsideGrid c ∧ st.grid c = 0

/-- Embedding of `is_valid_move` of the client: the cell reached from `pos` by one step in
`direction` is inside the grid and unoccupied. -/
abbrev is_valid_move (st : GameState) (pos : ℤ × ℤ) (direction : Direction) : Prop :=
  st.isInsideGrid (pos + getDirectionVector direction) ∧
    st.grid (pos + getDirectionVector direction) = 0

/-- The four cardinal neighbors of a cell, generated in the same
{N, E, S, W} order as the neighbor loop inside `calculateAccessibleArea`. -/
def neighborsOf (c : ℤ × ℤ) : List (ℤ × ℤ) :=
  dirList.map (fun d => c + getDirectionVector d)

/-- The finite set of all in-bounds cells of the grid. -/
def insideCells (st : GameState) : Finset (ℤ × ℤ) :=
  Finset.Icc (0 : ℤ) (st.gridWidth - 1) ×ˢ Finset.Icc (0 : ℤ) (st.gridHeight - 1)

theorem mem_insideCells {st : GameState} {c : ℤ × ℤ} :
    c ∈ insideCells st ↔ st.isInsideGrid c := by
  simp only [insideCells, Finset.mem_product, Finset.mem_Icc, GameState.isInsideGrid]
  omega

theorem neighborsOf_nodup (c : ℤ × ℤ) : (neighborsOf c).Nodup := by
  obtain ⟨x, y⟩ := c
  simp [neighborsOf, dirList, getDirectionVector, Prod.ext_iff]

/-- The body of the BFS `while` loop of `calculateAccessibleArea`: dequeue a
cell; skip it if already visited, outside the grid, or occupied; otherwise
mark it visited, count it, and enqueue its four cardinal neighbors
unconditionally. -/
def bfsLoop (st : GameState) : List (ℤ × ℤ) → Finset (ℤ × ℤ) → ℕ → ℕ
  | [], _, area => area
  | current :: rest, visited, area =>
    if current ∈ visited ∨ ¬ st.isInsideGrid current ∨ st.grid current ≠ 0 then
      bfsLoop st rest visited area
    else
      bfsLoop st (rest ++ neighborsOf current) (insert current visited) (area + 1)
termination_by toVisit visited _ =>
  (((insideCells st).filter (fun c => c ∉ visited)).card, toVisit.length)
decreasing_by
· apply Prod.Lex.right
  simp
· apply Prod.Lex.left
  rename_i h
  push_neg at h
  obtain ⟨h1, h2, -⟩ := h
  apply Finset.card_lt_card
  constructor
  · intro x hx
    simp only [Finset.mem_filter, Finset.mem_insert, not_or] at hx ⊢
    exact ⟨hx.1, hx.2.2⟩
  · intro hcon
    have hcur : current ∈ (insideCells st).filter (fun c => c ∉ visited) :=
      Finset.mem_filter.mpr ⟨mem_insideCells.mpr h2, h1⟩
    have hbad := hcon hcur
    simp only [Finset.mem_filter, Finset.mem_insert, not_or] at hbad
    exact hbad.2.1 trivial

/-- Embedding of `calculateAccessibleArea` of the client: flood-fill count of the cells
reachable from `start`, seeded with a queue holding `start`, an empty visited
set, and a zero counter. -/
def calculateAccessibleArea (st : GameState) (start : ℤ × ℤ) : ℕ :=
  bfsLoop st [start] ∅ 0

/-- Stable descending insertion of a scored candidate into an
already-descending list: the new element goes before the first strictly
smaller score, after any earlier candidate with an equal or larger score. -/
def insertDesc {α : Type} (p : α × ℤ) : List (α × ℤ) → List (α × ℤ)
  | [] => [p]
  | q :: rest => if p.2 ≥ q.2 then p :: q :: rest else q :: insertDesc p rest

/-- The `std::sort(moves.begin(), moves.end(), [](a, b){ return a.second >
b.second; })` call of `findBestMove`, embedded as the stable descending
insertion sort that libstdc++'s `std::sort` performs on ranges shorter than
its 16-element insertion-sort threshold (the candidate list holds at most
four entries). -/
def sortByScoreDesc {α : Type} : List (α × ℤ) → List (α × ℤ)
  | [] => []
  | p :: rest => insertDesc p (sortByScoreDesc rest)

/-- Embedding of `findBestMove` of the client: North on an empty candidate list, otherwise
the direction of the front element after sorting descending by score. -/
def findBestMove (moves : List (Direction × ℤ)) : Direction :=
  match sortByScoreDesc moves with
  | [] => Direction.north
  | best :: _ => best.1

/-- The earliest candidate achieving the maximal score: kept unless a strictly
larger score appears later in the list. Used as the specification-side
description of both `findBestMove` and the strict-maximum fold of
`predictOpponentMove`. -/
def firstMax {α : Type} : List (α × ℤ) → Option (α × ℤ)
  | [] => none
  | p :: rest =>
    match firstMax rest with
    | none => some p
    | some q => if q.2 > p.2 then some q else some p

theorem firstMax_eq_none_iff {α : Type} (l : List (α × ℤ)) :
    firstMax l = none ↔ l = [] := by
  cases l with
  | nil => simp [firstMax]
  | cons p rest =>
    simp only [firstMax]
    cases firstMax rest with
    | none => simp
    | some q =>
      by_cases h : q.2 > p.2 <;> simp [h]

theorem firstMax_le {α : Type} :
    ∀ (l : List (α × ℤ)) (m : α × ℤ), firstMax l = some m →
      ∀ p ∈ l, p.2 ≤ m.2 := by
  intro l
  induction l with
  | nil => simp [firstMax]
  | cons x rest ih =>
    intro m hm p hp
    rw [List.mem_cons] at hp
    simp only [firstMax] at hm
    split at hm
    · rename_i hrest
      simp only [Option.some.injEq] at hm
      subst m
      rcases hp with rfl | hp
      · omega
      · rw [firstMax_eq_none_iff] at hrest
        subst rest
        simp at hp
    · rename_i q hrest
      split at hm
      · rename_i hq
        simp only [Option.some.injEq] at hm
        subst m
        rcases hp with rfl | hp
        · omega
        · exact ih q hrest p hp
      · rename_i hq
        simp only [Option.some.injEq] at hm
        subst m
        rcases hp with rfl | hp
        · omega
        · have := ih q hrest p hp
          omega

theorem firstMax_decomp {α : Type} :
    ∀ (l : List (α × ℤ)) (m : α × ℤ), firstMax l = some m →
      ∃ pre post, l = pre ++ m :: post ∧ ∀ q ∈ pre, q.2 < m.2 := by
  intro l
  induction l with
  | nil => simp [firstMax]
  | cons x rest ih =>
    intro m hm
    simp only [firstMax] at hm
    split at hm
    · simp only [Option.some.injEq] at hm
      subst m
      exact ⟨[], rest, by simp⟩
    · rename_i q hrest
      split at hm
      · rename_i hq
        simp only [Option.some.injEq] at hm
        subst m
        obtain ⟨pre, post, hsplit, hpre⟩ := ih q hrest
        refine ⟨x :: pre, post, by simp [hsplit], ?_⟩
        intro p hp
        rw [List.mem_cons] at hp
        rcases hp with rfl | hp
        · exact hq
        · exact hpre p hp
      · rename_i hq
        simp only [Option.some.injEq] at hm
        subst m
        exact ⟨[], rest, by simp⟩

theorem sortByScoreDesc_head {α : Type} :
    ∀ (l : List (α × ℤ)) (m : α × ℤ), firstMax l = some m →
      ∃ t, sortByScoreDesc l = m :: t := by
  intro l
  induction l with
  | nil => simp [firstMax]
  | cons x rest ih =>
    intro m hm
    simp only [firstMax] at hm
    split at hm
    · rename_i hrest
      simp only [Option.some.injEq] at hm
      subst m
      rw [firstMax_eq_none_iff] at hrest
      subst rest
      exact ⟨[], rfl⟩
    · rename_i q hrest
      obtain ⟨t, ht⟩ := ih q hrest
      split at hm
      · rename_i hq
        simp only [Option.some.injEq] at hm
        subst m
        refine ⟨insertDesc x t, ?_⟩
        simp only [sortByScoreDesc, ht, insertDesc]
        rw [if_neg (by omega)]
      · rename_i hq
        simp only [Option.some.injEq] at hm
        subst m
        refine ⟨q :: t, ?_⟩
        simp only [sortByScoreDesc, ht, insertDesc]
        rw [if_pos (by omega)]

/-- C1: for every non-empty candidate list, `findBestMove` returns the
direction of a candidate `p` that splits the list as `pre ++ p :: post` with
every earlier candidate scoring strictly less and every candidate scoring at
most `p`'s score: the maximum, with ties broken in favor of the candidate
generated earlier in the fixed {North, East, South, West} enumeration order,
exactly as a stable descending sort by score behaves. -/
theorem findBestMove_first_maximum (moves : List (Direction × ℤ)) (h : moves ≠ []) :
    ∃ p pre post, findBestMove moves = p.1 ∧ moves = pre ++ p :: post ∧
      (∀ q ∈ pre, q.2 < p.2) ∧ (∀ q ∈ moves, q.2 ≤ p.2) := by
  rcases hm : firstMax moves with _ | m
  · rw [firstMax_eq_none_iff] at hm
    exact absurd hm h
  · obtain ⟨pre, post, hsplit, hpre⟩ := firstMax_decomp moves m hm
    obtain ⟨t, ht⟩ := sortByScoreDesc_head moves m hm
    refine ⟨m, pre, post, ?_, hsplit, hpre, firstMax_le moves m hm⟩
    simp [findBestMove, ht]

/-- Witness for C1 at a concrete candidate list with a tie at the maximal
score: the decomposition returned by the theorem exists for it. -/
theorem findBestMove_first_maximum_witness :
    ([(Direction.north, (3 : ℤ)), (Direction.east, 5), (Direction.south, 5)] ≠
        ([] : List (Direction × ℤ))) ∧
      (∃ p pre post,
        findBestMove [(Direction.north, (3 : ℤ)), (Direction.east, 5), (Direction.south, 5)] = p.1 ∧
          [(Direction.north, (3 : ℤ)), (Direction.east, 5), (Direction.south, 5)] =
            pre ++ p :: post ∧
          (∀ q ∈ pre, q.2 < p.2) ∧
          (∀ q ∈ [(Direction.north, (3 : ℤ)), (Direction.east, 5), (Direction.south, 5)],
            q.2 ≤ p.2)) :=
  ⟨by simp, findBestMove_first_maximum _ (by simp)⟩

/-- One hop of the flood fill: `b` is a cardinal neighbor of `a` and is
passable. -/
def floodStep (st : GameState) (a b : ℤ × ℤ) : Prop :=
  b ∈ neighborsOf a ∧ passableCell st b

/-- The specification-side description of the territory estimator (§4.3,
glossary): the set of passable cells reachable from `start` through chains of
passable cardinal neighbors; empty when `start` itself is impassable. -/
def reachSet (st : GameState) (start : ℤ × ℤ) : Set (ℤ × ℤ) :=
  { c | passableCell st start ∧ Relation.ReflTransGen (floodStep st) start c }

theorem mem_reachSet_passable {st : GameState} {start c : ℤ × ℤ}
    (h : c ∈ reachSet st start) : passableCell st c := by
  obtain ⟨hs, rtg⟩ := h
  induction rtg with
  | refl => exact hs
  | tail _ hstep _ => exact hstep.2

theorem reachSet_start_mem {st : GameState} {start : ℤ × ℤ}
    (h : passableCell st start) : start ∈ reachSet st start :=
  ⟨h, Relation.ReflTransGen.refl⟩

theorem reachSet_tail {st : GameState} {start c n : ℤ × ℤ}
    (hc : c ∈ reachSet st start) (hn : n ∈ neighborsOf c)
    (hp : passableCell st n) : n ∈ reachSet st start :=
  ⟨hc.1, hc.2.tail ⟨hn, hp⟩⟩

theorem reachSet_subset_closed {st : GameState} {start : ℤ × ℤ}
    {V : Set (ℤ × ℤ)} (hstart : passableCell st start → start ∈ V)
    (hclosed : ∀ c ∈ V, ∀ n ∈ neighborsOf c, passableCell st n → n ∈ V) :
    reachSet st start ⊆ V := by
  intro c hc
  obtain ⟨hs, rtg⟩ := hc
  induction rtg with
  | refl => exact hstart hs
  | tail _ hstep ih => exact hclosed _ ih _ hstep.1 hstep.2

theorem reachSet_subset_insideCells (st : GameState) (start : ℤ × ℤ) :
    reachSet st start ⊆ (insideCells st : Set (ℤ × ℤ)) := by
  intro c hc
  simpa [Finset.mem_coe, mem_insideCells] using (mem_reachSet_passable hc).1

theorem reachSet_finite (st : GameState) (start : ℤ × ℤ) :
    (reachSet st start).Finite :=
  Set.Finite.subset (insideCells st).finite_toSet (reachSet_subset_insideCells st start)

theorem reachSet_eq_empty_of_not_passable {st : GameState} {start : ℤ × ℤ}
    (h : ¬ passableCell st start) : reachSet st start = ∅ := by
  ext c
  simp only [reachSet, Set.mem_setOf_eq, Set.mem_empty_iff_false, iff_false, not_and]
  intro hs
  exact absurd hs h

/-- The loop invariant argument for the flood fill of
`calculateAccessibleArea`: whatever queue, visited set and counter the loop
is resumed from, as long as the five invariants hold the loop terminates with
exactly the number of cells reachable from `start`. -/
theorem bfsLoop_correct (st : GameState) (start : ℤ × ℤ) :
    ∀ (queue : List (ℤ × ℤ)) (visited : Finset (ℤ × ℤ)) (area : ℕ),
      area = visited.card →
      (∀ c ∈ visited, (c : ℤ × ℤ) ∈ reachSet st start) →
      (∀ c ∈ visited, ∀ n ∈ neighborsOf c, passableCell st n → n ∈ visited ∨ n ∈ queue) →
      (∀ q ∈ queue, q = start ∨ ∃ c ∈ visited, q ∈ neighborsOf c) →
      (passableCell st start → start ∈ visited ∨ start ∈ queue) →
      bfsLoop st queue visited area = (reachSet st start).ncard := by
  intro queue visited area
  induction queue, visited, area using bfsLoop.induct st with
  | case1 visited area =>
    intro h1 h2 h3 h4 h5
    have hset : (visited : Set (ℤ × ℤ)) = reachSet st start := by
      apply Set.Subset.antisymm
      · intro c hc
        exact h2 c hc
      · apply reachSet_subset_closed
        · intro hs
          rcases h5 hs with h | h
          · exact h
          · simp at h
        · intro c hc n hn hpn
          rcases h3 c hc n hn hpn with h | h
          · exact h
          · simp at h
    rw [show bfsLoop st [] visited area = area from by simp [bfsLoop], h1,
      ← Set.ncard_coe_Finset, hset]
  | case2 current rest visited area hcond ih =>
    intro h1 h2 h3 h4 h5
    simp only [bfsLoop]
    rw [if_pos hcond]
    apply ih h1 h2
    · intro c hc n hn hpn
      rcases h3 c hc n hn hpn with h | h
      · exact Or.inl h
      · rw [List.mem_cons] at h
        rcases h with rfl | h
        · rcases hcond with h' | h' | h'
          · exact Or.inl h'
          · exact absurd hpn.1 h'
          · exact absurd hpn.2 h'
        · exact Or.inr h
    · intro q hq
      exact h4 q (List.mem_cons_of_mem current hq)
    · intro hps
      rcases h5 hps with h | h
      · exact Or.inl h
      · rw [List.mem_cons] at h
        rcases h with rfl | h
        · rcases hcond with h' | h' | h'
          · exact Or.inl h'
          · exact absurd hps.1 h'
          · exact absurd hps.2 h'
        · exact Or.inr h
  | case3 current rest visited area hcond ih =>
    intro h1 h2 h3 h4 h5
    push_neg at hcond
    obtain ⟨hnv, hin, hg⟩ := hcond
    have hpcur : passableCell st current := ⟨hin, hg⟩
    have hcurR : current ∈ reachSet st start := by
      rcases h4 current (List.mem_cons_self current rest) with rfl | ⟨c, hc, hmem⟩
      · exact reachSet_start_mem hpcur
      · exact reachSet_tail (h2 c hc) hmem hpcur
    simp only [bfsLoop]
    rw [if_neg (by push_neg; exact ⟨hnv, hin, hg⟩)]
    apply ih
    · rw [Finset.card_insert_of_not_mem hnv]
      omega
    · intro c hc
      rcases Finset.mem_insert.mp hc with rfl | hc
      · exact hcurR
      · exact h2 c hc
    · intro c hc n hn hpn
      rcases Finset.mem_insert.mp hc with rfl | hc
      · exact Or.inr (List.mem_append_right rest hn)
      · rcases h3 c hc n hn hpn with h | h
        · exact Or.inl (Finset.mem_insert_of_mem h)
        · rw [List.mem_cons] at h
          rcases h with rfl | h
          · exact Or.inl (Finset.mem_insert_self n visited)
          · exact Or.inr (List.mem_append_left _ h)
    · intro q hq
      rcases List.mem_append.mp hq with hq | hq
      · rcases h4 q (List.mem_cons_of_mem current hq) with h | ⟨c, hc, hmem⟩
        · exact Or.inl h
        · exact Or.inr ⟨c, Finset.mem_insert_of_mem hc, hmem⟩
      · exact Or.inr ⟨current, Finset.mem_insert_self current visited, hq⟩
    · intro hps
      rcases h5 hps with h | h
      · exact Or.inl (Finset.mem_insert_of_mem h)
      · rw [List.mem_cons] at h
        rcases h with rfl | h
        · exact Or.inl (Finset.mem_insert_self start visited)
        · exact Or.inr (List.mem_append_left _ h)

/-- The flood fill counts exactly the passable cells reachable from `start`,
each once. -/
theorem calculateAccessibleArea_eq_ncard (st : GameState) (start : ℤ × ℤ) :
    calculateAccessibleArea st start = (reachSet st start).ncard := by
  apply bfsLoop_correct st start
  · simp
  · simp
  · simp
  · intro q hq
    rw [List.mem_singleton] at hq
    exact Or.inl hq
  · intro _
    exact Or.inr (List.mem_singleton_self start)

theorem isInsideGrid_mk (st : GameState) (x y : ℤ) :
    st.isInsideGrid (x, y) ↔
      0 ≤ x ∧ x < st.gridWidth ∧ 0 ≤ y ∧ y < st.gridHeight :=
  Iff.rfl

theorem mem_neighborsOf {c n : ℤ × ℤ} :
    n ∈ neighborsOf c ↔
      n = (c.1, c.2 - 1) ∨ n = (c.1 + 1, c.2) ∨ n = (c.1, c.2 + 1) ∨ n = (c.1 - 1, c.2) := by
  obtain ⟨x, y⟩ := c
  obtain ⟨u, v⟩ := n
  simp [neighborsOf, dirList, getDirectionVector, Prod.ext_iff]
  omega

theorem reach_horiz {st : GameState} (h0 : ∀ c, st.grid c = 0) :
    ∀ (n : ℕ) (x x' y : ℤ), st.isInsideGrid (x, y) → st.isInsideGrid (x', y) →
      (x' - x).natAbs = n →
      Relation.ReflTransGen (floodStep st) (x, y) (x', y) := by
  intro n
  induction n with
  | zero =>
    intro x x' y _ _ habs
    have hx : x = x' := by omega
    subst hx
    exact Relation.ReflTransGen.refl
  | succ k ih =>
    intro x x' y hx hx' habs
    have hxb := (isInsideGrid_mk st x y).mp hx
    have hxb' := (isInsideGrid_mk st x' y).mp hx'
    rcases lt_or_gt_of_ne (show x ≠ x' by omega) with hlt | hgt
    · have hmid : st.isInsideGrid (x + 1, y) := (isInsideGrid_mk st _ y).mpr (by omega)
      refine Relation.ReflTransGen.head
        ⟨mem_neighborsOf.mpr (Or.inr (Or.inl rfl)), hmid, h0 _⟩
        (ih (x + 1) x' y hmid hx' (by omega))
    · have hmid : st.isInsideGrid (x - 1, y) := (isInsideGrid_mk st _ y).mpr (by omega)
      refine Relation.ReflTransGen.head
        ⟨mem_neighborsOf.mpr (Or.inr (Or.inr (Or.inr rfl))), hmid, h0 _⟩
        (ih (x - 1) x' y hmid hx' (by omega))

theorem reach_vert {st : GameState} (h0 : ∀ c, st.grid c = 0) :
    ∀ (n : ℕ) (x y y' : ℤ), st.isInsideGrid (x, y) → st.isInsideGrid (x, y') →
      (y' - y).natAbs = n →
      Relation.ReflTransGen (floodStep st) (x, y) (x, y') := by
  intro n
  induction n with
  | zero =>
    intro x y y' _ _ habs
    have hy : y = y' := by omega
    subst hy
    exact Relation.ReflTransGen.refl
  | succ k ih =>
    intro x y y' hy hy' habs
    have hyb := (isInsideGrid_mk st x y).mp hy
    have hyb' := (isInsideGrid_mk st x y').mp hy'
    rcases lt_or_gt_of_ne (show y ≠ y' by omega) with hlt | hgt
    · have hmid : st.isInsideGrid (x, y + 1) := (isInsideGrid_mk st x _).mpr (by omega)
      refine Relation.ReflTransGen.head
        ⟨mem_neighborsOf.mpr (Or.inr (Or.inr (Or.inl rfl))), hmid, h0 _⟩
        (ih x (y + 1) y' hmid hy' (by omega))
    · have hmid : st.isInsideGrid (x, y - 1) := (isInsideGrid_mk st x _).mpr (by omega)
      refine Relation.ReflTransGen.head
        ⟨mem_neighborsOf.mpr (Or.inl rfl), hmid, h0 _⟩
        (ih x (y - 1) y' hmid hy' (by omega))

/-- On a fully empty grid every inside cell is flood-reachable from every
inside cell: go horizontally to the target column, then vertically. -/
theorem reach_of_empty {st : GameState} (h0 : ∀ c, st.grid c = 0) {a b : ℤ × ℤ}
    (ha : st.isInsideGrid a) (hb : st.isInsideGrid b) :
    Relation.ReflTransGen (floodStep st) a b := by
  obtain ⟨ax, ay⟩ := a
  obtain ⟨bx, by'⟩ := b
  have hab := (isInsideGrid_mk st ax ay).mp ha
  have hbb := (isInsideGrid_mk st bx by').mp hb
  have hmid : st.isInsideGrid (bx, ay) := (isInsideGrid_mk st bx ay).mpr (by omega)
  exact Relation.ReflTransGen.trans
    (reach_horiz h0 (bx - ax).natAbs ax bx ay ha hmid rfl)
    (reach_vert h0 (by' - ay).natAbs bx ay by' hmid hb rfl)

theorem reachSet_empty_grid {st : GameState} (h0 : ∀ c, st.grid c = 0)
    {start : ℤ × ℤ} (hs : st.isInsideGrid start) :
    reachSet st start = (insideCells st : Set (ℤ × ℤ)) := by
  apply Set.Subset.antisymm (reachSet_subset_insideCells st start)
  intro c hc
  rw [Finset.mem_coe, mem_insideCells] at hc
  exact ⟨⟨hs, h0 start⟩, reach_of_empty h0 hs hc⟩

theorem insideCells_card (st : GameState) :
    (insideCells st).card = st.gridWidth.toNat * st.gridHeight.toNat := by
  rw [insideCells, Finset.card_product, Int.card_Icc, Int.card_Icc]
  congr 1 <;> omega

/-- C4: the flood fill returns the number of passable cells reachable from
`start` through 4-neighbor passable paths, counting each cell exactly once;
in particular it returns 0 for an impassable (out-of-bounds or occupied)
start, and W×H for any inside start on a fully empty W×H grid. -/
theorem calculateAccessibleArea_spec (st : GameState) (start : ℤ × ℤ) :
    calculateAccessibleArea st start = (reachSet st start).ncard ∧
      (¬ passableCell st start → calculateAccessibleArea st start = 0) ∧
      ((∀ c, st.grid c = 0) → st.isInsideGrid start →
        calculateAccessibleArea st start = st.gridWidth.toNat * st.gridHeight.toNat) := by
  refine ⟨calculateAccessibleArea_eq_ncard st start, ?_, ?_⟩
  · intro h
    rw [calculateAccessibleArea_eq_ncard, reachSet_eq_empty_of_not_passable h,
      Set.ncard_empty]
  · intro h0 hs
    rw [calculateAccessibleArea_eq_ncard, reachSet_empty_grid h0 hs,
      Set.ncard_coe_Finset, insideCells_card]

/-- A concrete fully empty 2×2 grid with no players, used by witnesses. -/
def gridEmpty2 : GameState := ⟨2, 2, fun _ => 0, []⟩

/-- Witness for C4 at the concrete 2×2 empty grid: an out-of-bounds start
yields 0 and an inside start yields W×H = 4. -/
theorem calculateAccessibleArea_spec_witness :
    (¬ passableCell gridEmpty2 (5, 5)) ∧ calculateAccessibleArea gridEmpty2 (5, 5) = 0 ∧
      gridEmpty2.isInsideGrid (0, 0) ∧ calculateAccessibleArea gridEmpty2 (0, 0) = 4 := by
  refine ⟨by decide, (calculateAccessibleArea_spec gridEmpty2 (5, 5)).2.1 (by decide),
    by decide, ?_⟩
  have h := (calculateAccessibleArea_spec gridEmpty2 (0, 0)).2.2 (fun c => rfl) (by decide)
  simpa using h

/-- The number of iterations the `while` loop of `calculateAccessibleArea`
performs: one per dequeued cell, whether the cell is skipped or expanded.
Same recursion structure as `bfsLoop`, counting loop trips instead of area. -/
def bfsIters (st : GameState) : List (ℤ × ℤ) → Finset (ℤ × ℤ) → ℕ
  | [], _ => 0
  | current :: rest, visited =>
    if current ∈ visited ∨ ¬ st.isInsideGrid current ∨ st.grid current ≠ 0 then
      bfsIters st rest visited + 1
    else
      bfsIters st (rest ++ neighborsOf current) (insert current visited) + 1
termination_by toVisit visited =>
  (((insideCells st).filter (fun c => c ∉ visited)).card, toVisit.length)
decreasing_by
· apply Prod.Lex.right
  simp
· apply Prod.Lex.left
  rename_i h
  push_neg at h
  obtain ⟨h1, h2, -⟩ := h
  apply Finset.card_lt_card
  constructor
  · intro x hx
    simp only [Finset.mem_filter, Finset.mem_insert, not_or] at hx ⊢
    exact ⟨hx.1, hx.2.2⟩
  · intro hcon
    have hcur : current ∈ (insideCells st).filter (fun c => c ∉ visited) :=
      Finset.mem_filter.mpr ⟨mem_insideCells.mpr h2, h1⟩
    have hbad := hcon hcur
    simp only [Finset.mem_filter, Finset.mem_insert, not_or] at hbad
    exact hbad.2.1 trivial

theorem neighborsOf_length (c : ℤ × ℤ) : (neighborsOf c).length = 4 := by
  simp [neighborsOf, dirList]

theorem bfsIters_le (st : GameState) :
    ∀ (queue : List (ℤ × ℤ)) (visited : Finset (ℤ × ℤ)),
      bfsIters st queue visited ≤
        queue.length + 4 * ((insideCells st).filter (fun c => c ∉ visited)).card := by
  intro queue visited
  induction queue, visited using bfsIters.induct st with
  | case1 visited => simp [bfsIters]
  | case2 current rest visited hcond ih =>
    simp only [bfsIters]
    rw [if_pos hcond]
    simp only [List.length_cons]
    omega
  | case3 current rest visited hcond ih =>
    have hcond' := hcond
    push_neg at hcond'
    obtain ⟨hnv, hin, hg⟩ := hcond'
    simp only [bfsIters]
    rw [if_neg hcond]
    have hlen : (rest ++ neighborsOf current).length = rest.length + 4 := by
      simp [neighborsOf_length]
    have hfe : (insideCells st).filter (fun c => c ∉ insert current visited) =
        ((insideCells st).filter (fun c => c ∉ visited)).erase current := by
      ext a
      simp only [Finset.mem_filter, Finset.mem_erase, Finset.mem_insert, not_or]
      tauto
    have hmem : current ∈ (insideCells st).filter (fun c => c ∉ visited) :=
      Finset.mem_filter.mpr ⟨mem_insideCells.mpr hin, hnv⟩
    have hpos : 0 < ((insideCells st).filter (fun c => c ∉ visited)).card :=
      Finset.card_pos.mpr ⟨current, hmem⟩
    have hcard : ((insideCells st).filter (fun c => c ∉ insert current visited)).card =
        ((insideCells st).filter (fun c => c ∉ visited)).card - 1 := by
      rw [hfe, Finset.card_erase_of_mem hmem]
    rw [hlen, hcard] at ih
    simp only [List.length_cons]
    omega

/-- C6: the flood-fill loop of `calculateAccessibleArea` terminates — the
number of loop iterations from the initial one-element queue is bounded by
1 + 4·(number of grid cells), and each cell is expanded (counted) at most
once, so the area never exceeds the number of grid cells — even though the
work queue transiently holds out-of-bounds and duplicate cells. -/
theorem floodFill_terminates (st : GameState) (start : ℤ × ℤ) :
    bfsIters st [start] ∅ ≤ 1 + 4 * (insideCells st).card ∧
      calculateAccessibleArea st start ≤ (insideCells st).card := by
  constructor
  · have heq : (insideCells st).filter (fun c => c ∉ (∅ : Finset (ℤ × ℤ))) =
        insideCells st :=
      Finset.filter_true_of_mem (fun x _ => Finset.not_mem_empty x)
    have h := bfsIters_le st [start] ∅
    rw [heq] at h
    simpa using h
  · rw [calculateAccessibleArea_eq_ncard]
    have h := Set.ncard_le_ncard (reachSet_subset_insideCells st start)
      (insideCells st).finite_toSet
    simpa [Set.ncard_coe_Finset] using h

/-- Modelled from the spec: the enqueue-time-filtering flood fill of §4.3/§9
("implementers may filter at enqueue time for efficiency with identical
results"): a cell is checked for bounds, occupancy and prior visitation
before entering the queue, and is marked visited as it is enqueued; dequeued
cells are counted unconditionally. -/
def bfsLoopEnq (st : GameState) : List (ℤ × ℤ) → Finset (ℤ × ℤ) → ℕ → ℕ
  | [], _, area => area
  | current :: rest, visited, area =>
    bfsLoopEnq st
      (rest ++ (neighborsOf current).filter (fun n => passableCell st n ∧ n ∉ visited))
      (visited ∪ ((neighborsOf current).filter
        (fun n => passableCell st n ∧ n ∉ visited)).toFinset)
      (area + 1)
termination_by toVisit visited _ =>
  (((insideCells st).filter (fun c => c ∉ visited)).card, toVisit.length)
decreasing_by
· by_cases hf : (neighborsOf current).filter (fun n => passableCell st n ∧ n ∉ visited) = []
  · rw [hf]
    simp only [List.toFinset_nil, Finset.union_empty, List.append_nil]
    apply Prod.Lex.right
    simp
  · apply Prod.Lex.left
    obtain ⟨n, hn⟩ := List.exists_mem_of_ne_nil _ hf
    have hn' := List.mem_filter.mp hn
    have hnp : passableCell st n ∧ n ∉ visited := by
      simpa using hn'.2
    apply Finset.card_lt_card
    constructor
    · intro x hx
      simp only [Finset.mem_filter, Finset.mem_union, not_or] at hx ⊢
      exact ⟨hx.1, hx.2.1⟩
    · intro hcon
      have hmem : n ∈ (insideCells st).filter (fun c => c ∉ visited) :=
        Finset.mem_filter.mpr ⟨mem_insideCells.mpr hnp.1.1, hnp.2⟩
      have hbad := hcon hmem
      simp only [Finset.mem_filter, Finset.mem_union, not_or, List.mem_toFinset] at hbad
      exact hbad.2.2 hn

/-- Modelled from the spec: the enqueue-time-filtering variant of
`calculateAccessibleArea`, seeding the queue with `start` only after checking
its passability (the start cell "must be tested for passability as part of
the fill"). -/
def calculateAccessibleAreaEnq (st : GameState) (start : ℤ × ℤ) : ℕ :=
  if passableCell st start then bfsLoopEnq st [start] {start} 0 else 0

theorem bfsLoopEnq_correct (st : GameState) (start : ℤ × ℤ) :
    ∀ (queue : List (ℤ × ℤ)) (visited : Finset (ℤ × ℤ)) (area : ℕ),
      area + queue.length = visited.card →
      queue.Nodup →
      (∀ q ∈ queue, q ∈ visited) →
      (∀ c ∈ visited, (c : ℤ × ℤ) ∈ reachSet st start) →
      (∀ c ∈ visited, c ∉ queue → ∀ n ∈ neighborsOf c, passableCell st n → n ∈ visited) →
      start ∈ visited →
      bfsLoopEnq st queue visited area = (reachSet st start).ncard := by
  intro queue visited area
  induction queue, visited, area using bfsLoopEnq.induct st with
  | case1 visited area =>
    intro h1 _ _ h4 h5 h6
    have hset : (visited : Set (ℤ × ℤ)) = reachSet st start := by
      apply Set.Subset.antisymm
      · intro c hc
        exact h4 c hc
      · apply reachSet_subset_closed
        · intro _
          exact h6
        · intro c hc n hn hpn
          exact h5 c hc (by simp) n hn hpn
    rw [show bfsLoopEnq st [] visited area = area from by simp [bfsLoopEnq]]
    have ha : area = visited.card := by simpa using h1
    rw [ha, ← Set.ncard_coe_Finset, hset]
  | case2 current rest visited area ih =>
    intro h1 h2 h3 h4 h5 h6
    have hrest_nd : rest.Nodup := h2.of_cons
    have hcur_nin : current ∉ rest := (List.nodup_cons.mp h2).1
    have hcurv : current ∈ visited := h3 current (List.mem_cons_self current rest)
    have hcurR : current ∈ reachSet st start := h4 current hcurv
    set fresh := (neighborsOf current).filter (fun n => passableCell st n ∧ n ∉ visited)
      with hfresh
    have hfresh_mem : ∀ n ∈ fresh, n ∈ neighborsOf current ∧ passableCell st n ∧
        n ∉ visited := by
      intro n hn
      have h := List.mem_filter.mp hn
      refine ⟨h.1, ?_⟩
      simpa using h.2
    have hfresh_nd : fresh.Nodup := (neighborsOf_nodup current).filter _
    have hdisj : Disjoint visited fresh.toFinset := by
      rw [Finset.disjoint_right]
      intro a ha
      exact ((hfresh_mem a (List.mem_toFinset.mp ha)).2.2)
    simp only [bfsLoopEnq]
    rw [← hfresh]
    apply ih
    · rw [Finset.card_union_of_disjoint hdisj, List.card_toFinset,
        hfresh_nd.dedup]
      simp only [List.length_append, List.length_cons] at h1 ⊢
      omega
    · rw [List.nodup_append]
      refine ⟨hrest_nd, hfresh_nd, ?_⟩
      intro a ha haf
      exact (hfresh_mem a haf).2.2 (h3 a (List.mem_cons_of_mem current ha))
    · intro q hq
      rcases List.mem_append.mp hq with hq | hq
      · exact Finset.mem_union_left _ (h3 q (List.mem_cons_of_mem current hq))
      · exact Finset.mem_union_right _ (List.mem_toFinset.mpr hq)
    · intro c hc
      rcases Finset.mem_union.mp hc with hc | hc
      · exact h4 c hc
      · obtain ⟨hn, hp, -⟩ := hfresh_mem c (List.mem_toFinset.mp hc)
        exact reachSet_tail hcurR hn hp
    · intro c hc hcq n hn hpn
      rcases Finset.mem_union.mp hc with hc | hc
      · by_cases hcc : c = current
        · subst hcc
          by_cases hnv : n ∈ visited
          · exact Finset.mem_union_left _ hnv
          · refine Finset.mem_union_right _ (List.mem_toFinset.mpr ?_)
            rw [hfresh, List.mem_filter]
            refine ⟨hn, ?_⟩
            simpa using ⟨hpn, hnv⟩
        · have hcq' : c ∉ current :: rest := by
            intro hmem
            rw [List.mem_cons] at hmem
            rcases hmem with rfl | hmem
            · exact hcc rfl
            · exact hcq (List.mem_append_left _ hmem)
          exact Finset.mem_union_left _ (h5 c hc hcq' n hn hpn)
      · exact absurd (List.mem_append_right rest (List.mem_toFinset.mp hc)) hcq
    · exact Finset.mem_union_left _ h6

theorem calculateAccessibleAreaEnq_eq_ncard (st : GameState) (start : ℤ × ℤ) :
    calculateAccessibleAreaEnq st start = (reachSet st start).ncard := by
  unfold calculateAccessibleAreaEnq
  split
  · rename_i hp
    apply bfsLoopEnq_correct st start
    · simp
    · simp
    · simp
    · intro c hc
      rw [Finset.mem_singleton] at hc
      subst hc
      exact reachSet_start_mem hp
    · intro c hc hcq
      rw [Finset.mem_singleton] at hc
      subst hc
      exact absurd (List.mem_singleton_self c) hcq
    · exact Finset.mem_singleton_self start
  · rename_i hp
    rw [reachSet_eq_empty_of_not_passable hp, Set.ncard_empty]

/-- C7: filtering candidate cells for bounds, occupancy and prior visitation
at enqueue time yields exactly the same area count as the implemented flood
fill, which enqueues all four neighbors unconditionally and filters at
dequeue time. -/
theorem enqueueFilter_same_area (st : GameState) (start : ℤ × ℤ) :
    calculateAccessibleAreaEnq st start = calculateAccessibleArea st start := by
  rw [calculateAccessibleAreaEnq_eq_ncard, calculateAccessibleArea_eq_ncard]

theorem bfsLoop_ge (st : GameState) :
    ∀ (queue : List (ℤ × ℤ)) (visited : Finset (ℤ × ℤ)) (area : ℕ),
      area ≤ bfsLoop st queue visited area := by
  intro queue visited area
  induction queue, visited, area using bfsLoop.induct st with
  | case1 visited area => simp [bfsLoop]
  | case2 current rest visited area hcond ih =>
    simp only [bfsLoop]
    rw [if_pos hcond]
    exact ih
  | case3 current rest visited area hcond ih =>
    simp only [bfsLoop]
    rw [if_neg hcond]
    omega

/-- A passable cell always has a strictly positive accessible area: the fill
counts at least the cell itself. -/
theorem calculateAccessibleArea_pos {st : GameState} {c : ℤ × ℤ}
    (hp : passableCell st c) : 1 ≤ calculateAccessibleArea st c := by
  unfold calculateAccessibleArea
  simp only [bfsLoop]
  rw [if_neg (by push_neg; exact ⟨Finset.not_mem_empty c, hp.1, hp.2⟩)]
  have h := bfsLoop_ge st ([] ++ neighborsOf c) (insert c ∅) (0 + 1)
  omega

/-- One comparison of the running best of `predictOpponentMove`: replace the
accumulator only when the new candidate's score is strictly larger. -/
def strictStep {α : Type} (acc p : α × ℤ) : α × ℤ :=
  if p.2 > acc.2 then p else acc

/-- The `maxArea`/`bestMove` accumulation loop of `predictOpponentMove`. -/
def strictMaxFold {α : Type} (init : α × ℤ) (l : List (α × ℤ)) : α × ℤ :=
  l.foldl strictStep init

theorem le_strictStep_left {α : Type} (acc p : α × ℤ) :
    acc.2 ≤ (strictStep acc p).2 := by
  unfold strictStep
  split <;> omega

theorem strictMaxFold_of_le {α : Type} :
    ∀ (l : List (α × ℤ)) (init : α × ℤ), (∀ p ∈ l, p.2 ≤ init.2) →
      strictMaxFold init l = init := by
  intro l
  induction l with
  | nil => intro init _; rfl
  | cons x rest ih =>
    intro init h
    have hx : x.2 ≤ init.2 := h x (List.mem_cons_self x rest)
    have hstep : strictStep init x = init := by
      unfold strictStep
      rw [if_neg (by omega)]
    show strictMaxFold (strictStep init x) rest = init
    rw [hstep]
    exact ih init (fun p hp => h p (List.mem_cons_of_mem x hp))

/-- The strict-maximum fold starting from `init` returns the earliest element
whose score is maximal, provided some element strictly beats `init`. -/
theorem strictMaxFold_spec {α : Type} :
    ∀ (l : List (α × ℤ)) (init : α × ℤ), (∃ p ∈ l, init.2 < p.2) →
      ∃ m pre post, strictMaxFold init l = m ∧ l = pre ++ m :: post ∧
        (∀ q ∈ pre, q.2 < m.2) ∧ (∀ q ∈ l, q.2 ≤ m.2) ∧ init.2 < m.2 := by
  intro l
  induction l with
  | nil =>
    rintro init ⟨p, hp, -⟩
    simp at hp
  | cons x rest ih =>
    intro init hex
    have hstep : strictMaxFold init (x :: rest) = strictMaxFold (strictStep init x) rest :=
      rfl
    have hle : x.2 ≤ (strictStep init x).2 := by
      unfold strictStep
      split <;> omega
    have hle' : init.2 ≤ (strictStep init x).2 := le_strictStep_left init x
    by_cases hrest : ∃ p ∈ rest, (strictStep init x).2 < p.2
    · obtain ⟨m, pre, post, hfold, hsplit, hpre, hall, hinit⟩ := ih (strictStep init x) hrest
      refine ⟨m, x :: pre, post, by rw [hstep, hfold], by simp [hsplit], ?_, ?_, by omega⟩
      · intro q hq
        rcases List.mem_cons.mp hq with rfl | hq
        · omega
        · exact hpre q hq
      · intro q hq
        rcases List.mem_cons.mp hq with rfl | hq
        · omega
        · exact hall q hq
    · push_neg at hrest
      have hfold : strictMaxFold init (x :: rest) = strictStep init x := by
        rw [hstep]
        exact strictMaxFold_of_le rest _ hrest
      by_cases hx : x.2 > init.2
      · have hsx : strictStep init x = x := by
          unfold strictStep
          rw [if_pos hx]
        refine ⟨x, [], rest, by rw [hfold, hsx], by simp, by simp, ?_, hx⟩
        intro q hq
        rcases List.mem_cons.mp hq with rfl | hq
        · omega
        · have h := hrest q hq
          rw [hsx] at h
          exact h
      · exfalso
        have hsx : strictStep init x = init := by
          unfold strictStep
          rw [if_neg hx]
        obtain ⟨p, hp, hip⟩ := hex
        rcases List.mem_cons.mp hp with rfl | hp
        · omega
        · have h := hrest p hp
          rw [hsx] at h
          omega

/-- Embedding of `predictOpponentMove` of the client: scan the four cardinal neighbors of
the opponent's head in {N, E, S, W} order; for each passable one compute its
accessible area and keep it as `bestMove` only when its area strictly exceeds
the running `maxArea` (initially 0, with `bestMove` initially the head
itself). -/
def predictOpponentMove (st : GameState) (opponentHead : ℤ × ℤ) : ℤ × ℤ :=
  (dirList.foldl
    (fun acc d =>
      let candidateMove := opponentHead + getDirectionVector d
      if passableCell st candidateMove then
        if (calculateAccessibleArea st candidateMove : ℤ) > acc.2 then
          (candidateMove, (calculateAccessibleArea st candidateMove : ℤ))
        else acc
      else acc)
    (opponentHead, 0)).1

/-- The passable neighbors of the opponent's head in {N, E, S, W} order, each
paired with its accessible area — the candidates `predictOpponentMove`
chooses among. -/
def opponentCandidates (st : GameState) (opponentHead : ℤ × ℤ) : List ((ℤ × ℤ) × ℤ) :=
  dirList.filterMap (fun d =>
    if passableCell st (opponentHead + getDirectionVector d) then
      some (opponentHead + getDirectionVector d,
        (calculateAccessibleArea st (opponentHead + getDirectionVector d) : ℤ))
    else none)

theorem predict_fold_eq (st : GameState) (head : ℤ × ℤ) :
    ∀ (l : List Direction) (acc : (ℤ × ℤ) × ℤ),
      l.foldl
        (fun acc d =>
          let candidateMove := head + getDirectionVector d
          if passableCell st candidateMove then
            if (calculateAccessibleArea st candidateMove : ℤ) > acc.2 then
              (candidateMove, (calculateAccessibleArea st candidateMove : ℤ))
            else acc
          else acc) acc =
      strictMaxFold acc (l.filterMap (fun d =>
        if passableCell st (head + getDirectionVector d) then
          some (head + getDirectionVector d,
            (calculateAccessibleArea st (head + getDirectionVector d) : ℤ))
        else none)) := by
  intro l
  induction l with
  | nil => intro acc; rfl
  | cons x rest ih =>
    intro acc
    rw [List.foldl_cons, List.filterMap_cons]
    by_cases hp : passableCell st (head + getDirectionVector x)
    · simp only [if_pos hp]
      rw [show strictMaxFold acc ((head + getDirectionVector x,
          (calculateAccessibleArea st (head + getDirectionVector x) : ℤ)) ::
          rest.filterMap _) =
        strictMaxFold (strictStep acc (head + getDirectionVector x,
          (calculateAccessibleArea st (head + getDirectionVector x) : ℤ)))
          (rest.filterMap _) from rfl]
      rw [ih]
      congr 1
    · simp only [if_neg hp]
      exact ih acc

theorem predictOpponentMove_eq (st : GameState) (opponentHead : ℤ × ℤ) :
    predictOpponentMove st opponentHead =
      (strictMaxFold (opponentHead, 0) (opponentCandidates st opponentHead)).1 := by
  unfold predictOpponentMove opponentCandidates
  rw [predict_fold_eq st opponentHead dirList (opponentHead, 0)]

theorem opponentCandidates_mem {st : GameState} {opponentHead : ℤ × ℤ}
    {p : (ℤ × ℤ) × ℤ} (hp : p ∈ opponentCandidates st opponentHead) :
    passableCell st p.1 ∧ p.2 = (calculateAccessibleArea st p.1 : ℤ) := by
  unfold opponentCandidates at hp
  rw [List.mem_filterMap] at hp
  obtain ⟨d, -, hd⟩ := hp
  by_cases hpass : passableCell st (opponentHead + getDirectionVector d)
  · rw [if_pos hpass] at hd
    simp only [Option.some.injEq] at hd
    rw [← hd]
    exact ⟨hpass, rfl⟩
  · rw [if_neg hpass] at hd
    simp at hd

theorem opponentCandidates_pos {st : GameState} {opponentHead : ℤ × ℤ}
    {p : (ℤ × ℤ) × ℤ} (hp : p ∈ opponentCandidates st opponentHead) : 0 < p.2 := by
  obtain ⟨hpass, harea⟩ := opponentCandidates_mem hp
  have h := calculateAccessibleArea_pos hpass
  omega

/-- C5: `predictOpponentMove` evaluates the opponent head's four cardinal
neighbors in {N, E, S, W} order; with no passable neighbor (equivalently, no
passable neighbor of positive area — a passable cell always has positive
area) it returns the head unchanged, and otherwise it returns the passable
neighbor with the strictly largest `calculateAccessibleArea`, the earliest in
iteration order winning ties because the comparison is strict. -/
theorem predictOpponentMove_spec (st : GameState) (opponentHead : ℤ × ℤ) :
    (opponentCandidates st opponentHead = [] →
      predictOpponentMove st opponentHead = opponentHead) ∧
    (opponentCandidates st opponentHead ≠ [] →
      ∃ p pre post, predictOpponentMove st opponentHead = p.1 ∧
        opponentCandidates st opponentHead = pre ++ p :: post ∧
        (∀ q ∈ pre, q.2 < p.2) ∧
        (∀ q ∈ opponentCandidates st opponentHead, q.2 ≤ p.2) ∧ 0 < p.2) := by
  constructor
  · intro h
    rw [predictOpponentMove_eq, h]
    rfl
  · intro h
    obtain ⟨c, rest, hc⟩ := List.exists_cons_of_ne_nil h
    have hcmem : c ∈ opponentCandidates st opponentHead := by
      rw [hc]
      exact List.mem_cons_self c rest
    have hex : ∃ p ∈ opponentCandidates st opponentHead, ((opponentHead, 0) : (ℤ × ℤ) × ℤ).2 < p.2 :=
      ⟨c, hcmem, opponentCandidates_pos hcmem⟩
    obtain ⟨m, pre, post, hfold, hsplit, hpre, hall, hinit⟩ :=
      strictMaxFold_spec (opponentCandidates st opponentHead) (opponentHead, 0) hex
    exact ⟨m, pre, post, by rw [predictOpponentMove_eq, hfold], hsplit, hpre, hall, hinit⟩

/-- A concrete fully empty 1×1 grid with no players, used by witnesses: a
head placed on its only cell has no passable neighbor. -/
def gridOne : GameState := ⟨1, 1, fun _ => 0, []⟩

/-- Witness for C5 at a concrete boxed-in opponent: on the 1×1 grid every
neighbor of the head is out of bounds, and the head is returned unchanged. -/
theorem predictOpponentMove_spec_witness :
    opponentCandidates gridOne (0, 0) = [] ∧
      predictOpponentMove gridOne (0, 0) = (0, 0) := by
  have h : opponentCandidates gridOne (0, 0) = [] := by decide
  exact ⟨h, (predictOpponentMove_spec gridOne (0, 0)).1 h⟩

/-- Manhattan distance between two cells, the
`abs(a.x - b.x) + abs(a.y - b.y)` computation of `decideAggressiveMove`. -/
def manhattanDist (a b : ℤ × ℤ) : ℤ :=
  |a.1 - b.1| + |a.2 - b.2|

/-- Membership in a guarded `filterMap`: `(d, s)` is produced exactly when
`d` is in the scanned list, passes the guard, and `s` is its computed
score. -/
theorem mem_filterMap_guard {α β : Type} (P : α → Prop) [DecidablePred P]
    (f : α → β) :
    ∀ (l : List α) (d : α) (s : β),
      ((d, s) ∈ l.filterMap (fun x => if P x then some (x, f x) else none) ↔
        d ∈ l ∧ P d ∧ s = f d) := by
  intro l
  induction l with
  | nil => simp
  | cons x rest ih =>
    intro d s
    rw [List.filterMap_cons]
    by_cases hp : P x
    · rw [if_pos hp]
      simp only [List.mem_cons, Prod.mk.injEq]
      constructor
      · rintro (⟨rfl, rfl⟩ | h)
        · exact ⟨Or.inl rfl, hp, rfl⟩
        · obtain ⟨hd, hP, hs⟩ := (ih d s).mp h
          exact ⟨Or.inr hd, hP, hs⟩
      · rintro ⟨rfl | hd, hP, rfl⟩
        · exact Or.inl ⟨rfl, rfl⟩
        · exact Or.inr ((ih d (f d)).mpr ⟨hd, hP, rfl⟩)
    · rw [if_neg hp]
      constructor
      · intro h
        obtain ⟨hd, hP, hs⟩ := (ih d s).mp h
        exact ⟨List.mem_cons_of_mem x hd, hP, hs⟩
      · rintro ⟨hd, hP, rfl⟩
        rcases List.mem_cons.mp hd with rfl | hd
        · exact absurd hP hp
        · exact (ih d (f d)).mpr ⟨hd, hP, rfl⟩

theorem mem_dirList (d : Direction) : d ∈ dirList := by
  cases d <;> simp [dirList]

/-- The scored candidate list built by the loop of `decideAggressiveMove`:
each valid direction paired with `accessible area − Manhattan distance of the
resulting cell to the target`. -/
def aggressiveCandidates (st : GameState) (pos target : ℤ × ℤ) : List (Direction × ℤ) :=
  dirList.filterMap (fun dir =>
    if is_valid_move st pos dir then
      some (dir, (calculateAccessibleArea st (pos + getDirectionVector dir) : ℤ) -
        manhattanDist (pos + getDirectionVector dir) target)
    else none)

/-- Embedding of `decideAggressiveMove` of the client: score the valid moves against
`target` (the predicted opponent cell at the call site in `decideMove`) and
pick the best. The `predictedHead` parameter is carried but never read, as in
the source. -/
def decideAggressiveMove (st : GameState) (pos target predictedHead : ℤ × ℤ) : Direction :=
  findBestMove (aggressiveCandidates st pos target)

/-- The scored candidate list built by the loop of `findSafeDirection`: each
valid direction paired with the accessible area of the resulting cell. -/
def safeCandidates (st : GameState) (pos : ℤ × ℤ) : List (Direction × ℤ) :=
  dirList.filterMap (fun dir =>
    if is_valid_move st pos dir then
      some (dir, (calculateAccessibleArea st (pos + getDirectionVector dir) : ℤ))
    else none)

/-- Embedding of `findSafeDirection` of the client: choose the valid move with the largest
accessible area. -/
def findSafeDirection (st : GameState) (pos : ℤ × ℤ) : Direction :=
  findBestMove (safeCandidates st pos)

/-- C3: in aggression mode a direction is scored iff it is a valid move, and
its score is exactly `reachable area of the resulting cell − Manhattan
distance from the resulting cell to the predicted opponent cell`, as exact
integer arithmetic; impassable directions produce no candidate. -/
theorem aggressive_score_exact (st : GameState) (pos target : ℤ × ℤ)
    (d : Direction) (s : ℤ) :
    (d, s) ∈ aggressiveCandidates st pos target ↔
      is_valid_move st pos d ∧
        s = (calculateAccessibleArea st (pos + getDirectionVector d) : ℤ) -
          manhattanDist (pos + getDirectionVector d) target := by
  have h := mem_filterMap_guard (is_valid_move st pos)
    (fun dir => (calculateAccessibleArea st (pos + getDirectionVector dir) : ℤ) -
      manhattanDist (pos + getDirectionVector dir) target) dirList d s
  unfold aggressiveCandidates
  constructor
  · intro hmem
    obtain ⟨-, hP, hs⟩ := h.mp hmem
    exact ⟨hP, hs⟩
  · rintro ⟨hP, hs⟩
    exact h.mpr ⟨mem_dirList d, hP, hs⟩

/-- Witness for C3 at a concrete state: on the 1×1 grid no direction is a
valid move from the only cell, so no scored candidate exists. -/
theorem aggressive_score_exact_witness :
    ¬ is_valid_move gridOne (0, 0) Direction.north ∧
      (Direction.north, (37 : ℤ)) ∉ aggressiveCandidates gridOne (0, 0) (0, 0) := by
  refine ⟨by decide, fun h => ?_⟩
  exact absurd ((aggressive_score_exact gridOne (0, 0) (0, 0) Direction.north 37).mp h).1
    (by decide)

/-- C9: a fully enclosed player is not an error: `findBestMove` of an empty
candidate list is North, and both scoring modes fall back to North when no
direction is a valid move. -/
theorem enclosed_player_fallback_north (st : GameState) (pos : ℤ × ℤ)
    (h : ∀ d : Direction, ¬ is_valid_move st pos d) :
    findBestMove [] = Direction.north ∧
      findSafeDirection st pos = Direction.north ∧
      ∀ target predictedHead : ℤ × ℤ,
        decideAggressiveMove st pos target predictedHead = Direction.north := by
  have hsafe : safeCandidates st pos = [] := by
    unfold safeCandidates
    rw [List.filterMap_eq_nil_iff]
    intro d _
    exact if_neg (h d)
  have haggr : ∀ target, aggressiveCandidates st pos target = [] := by
    intro target
    unfold aggressiveCandidates
    rw [List.filterMap_eq_nil_iff]
    intro d _
    exact if_neg (h d)
  refine ⟨rfl, ?_, ?_⟩
  · unfold findSafeDirection
    rw [hsafe]
    rfl
  · intro target predictedHead
    unfold decideAggressiveMove
    rw [haggr target]
    rfl

/-- Witness for C9: the only cell of the 1×1 grid has all four neighbors out
of bounds, and both modes fall back to North there. -/
theorem enclosed_player_fallback_north_witness :
    (∀ d : Direction, ¬ is_valid_move gridOne (0, 0) d) ∧
      findSafeDirection gridOne (0, 0) = Direction.north ∧
      decideAggressiveMove gridOne (0, 0) (2, 2) (3, 3) = Direction.north :=
  ⟨by decide, (enclosed_player_fallback_north gridOne (0, 0) (by decide)).2.1,
    (enclosed_player_fallback_north gridOne (0, 0) (by decide)).2.2 (2, 2) (3, 3)⟩

/-- The mutable per-session state of the `BotClient` class: identity, latest
snapshot, resolved player, RNG seed, previous direction code and fallback
counter (the latter two are written or initialized but never read by any
decision). The RNG is embedded as its seed, the only part of its state the
client ever touches. -/
structure BotClient where
  name : String
  state : GameState
  my_player : Player
  rng : ℕ
  previousDirection : ℤ
  fallbackCounter : ℤ

/-- Modelled from the spec: `findNearestOpponentHead` (§4.4) — called by the
client but defined in repository code not among the provided sources. Scans
the players, skipping any whose name matches the controlled name, keeping the
head that minimizes Manhattan distance to the controlled head (the first
encountered wins ties), and returning the sentinel (-1, -1) when no opponent
exists — the sentinel `decideMove` compares against. -/
def findNearestOpponentHead (st : GameState) (selfName : String)
    (selfPos : ℤ × ℤ) : ℤ × ℤ :=
  (st.players.foldl
    (fun (acc : (ℤ × ℤ) × Option ℤ) player =>
      if player.name = selfName then acc
      else
        match acc.2 with
        | none => (player.position, some (manhattanDist player.position selfPos))
        | some best =>
          if manhattanDist player.position selfPos < best then
            (player.position, some (manhattanDist player.position selfPos))
          else acc)
    ((-1, -1), none)).1

/-- Embedding of `decideMove` of the client: safety mode when no opponent head was found
(the sentinel compares equal), otherwise aggression mode targeting the
predicted cell of the nearest opponent head. -/
def decideMove (b : BotClient) : Direction :=
  let nearestHead := findNearestOpponentHead b.state b.name b.my_player.position
  if nearestHead = (-1, -1) then
    findSafeDirection b.state b.my_player.position
  else
    decideAggressiveMove b.state b.my_player.position
      (predictOpponentMove b.state nearestHead) nearestHead

/-- Embedding of `receiveGameState` of the client: install the fresh snapshot, then scan
its roster for the first player whose name is exactly the controlled name;
when no entry matches, the loop finishes without assigning and `my_player`
silently keeps its value from the previous tick. -/
def receiveGameState (b : BotClient) (fresh : GameState) : BotClient :=
  { b with
    state := fresh
    my_player := (fresh.players.find? (fun p => p.name == b.name)).getD b.my_player }

/-- Embedding of `sendMove` of the client: decide a direction, record its code in
`previousDirection`, and hand the direction itself to the connection (the
first component). -/
def sendMove (b : BotClient) : Direction × BotClient :=
  (decideMove b, { b with previousDirection := getDirectionValue (decideMove b) })

/-- A client whose `my_player` was resolved on some earlier tick. -/
def staleBot : BotClient :=
  ⟨"sebastian_perilla", gridOne, ⟨"sebastian_perilla", (1, 1)⟩, 0, -1, 0⟩

/-- A fresh snapshot whose roster does not contain the controlled player. -/
def rosterWithoutSelf : GameState :=
  ⟨3, 3, fun _ => 0, [⟨"randomio1", (2, 2)⟩]⟩

/-- C2 (evaluation at the failing input): when the controlled player's name
has no exact match in the fresh snapshot's roster, `receiveGameState` keeps
the previous tick's `my_player` unchanged and installs the new snapshot, and
the tick proceeds to `sendMove`, whose emitted direction is decided from that
stale position — there is no error branch. -/
theorem receiveGameState_keeps_stale_player :
    (∀ p ∈ rosterWithoutSelf.players, p.name ≠ staleBot.name) ∧
      (receiveGameState staleBot rosterWithoutSelf).my_player = staleBot.my_player ∧
      (receiveGameState staleBot rosterWithoutSelf).state = rosterWithoutSelf ∧
      (sendMove (receiveGameState staleBot rosterWithoutSelf)).1 =
        decideMove (receiveGameState staleBot rosterWithoutSelf) := by
  refine ⟨by decide, by decide, rfl, rfl⟩

/-- C10: deciding is pure — two runs on the same unchanged client agree; the
recorded previous direction, the RNG seed and the fallback counter never
influence the decision; and any two clients agreeing on the snapshot, the
controlled name and the resolved player decide the same direction. -/
theorem decideMove_deterministic :
    (∀ b : BotClient, decideMove b = decideMove b) ∧
      (∀ (b : BotClient) (prev : ℤ) (seed : ℕ) (fc : ℤ),
        decideMove
            { b with previousDirection := prev, rng := seed, fallbackCounter := fc } =
          decideMove b) ∧
      (∀ b1 b2 : BotClient, b1.state = b2.state → b1.name = b2.name →
        b1.my_player = b2.my_player → decideMove b1 = decideMove b2) := by
  refine ⟨fun b => rfl, fun b prev seed fc => rfl, ?_⟩
  intro b1 b2 hs hn hp
  unfold decideMove
  rw [hs, hn, hp]

/-- A client with one RNG seed, previous direction and fallback counter. -/
def botA : BotClient := ⟨"p1", gridOne, ⟨"p1", (0, 0)⟩, 1, -1, 0⟩

/-- The same client with different RNG seed, previous direction and counter. -/
def botB : BotClient := ⟨"p1", gridOne, ⟨"p1", (0, 0)⟩, 424242, 2, 9⟩

/-- Witness for C10: two concrete clients differing only in RNG seed,
previous direction and fallback counter decide the same direction. -/
theorem decideMove_deterministic_witness :
    botA.state = botB.state ∧ botA.name = botB.name ∧
      botA.my_player = botB.my_player ∧ decideMove botA = decideMove botB :=
  ⟨rfl, rfl, rfl, decideMove_deterministic.2.2 botA botB rfl rfl rfl⟩

theorem isInsideGrid_congr {st st' : GameState} (hw : st'.gridWidth = st.gridWidth)
    (hh : st'.gridHeight = st.gridHeight) :
    ∀ c, st'.isInsideGrid c ↔ st.isInsideGrid c := by
  intro c
  unfold GameState.isInsideGrid
  rw [hw, hh]

theorem passableCell_congr {st st' : GameState} (hw : st'.gridWidth = st.gridWidth)
    (hh : st'.gridHeight = st.gridHeight)
    (hg : ∀ c, st.isInsideGrid c → st'.grid c = st.grid c) :
    ∀ c, passableCell st' c ↔ passableCell st c := by
  intro c
  have hi := isInsideGrid_congr hw hh c
  constructor
  · rintro ⟨h1, h2⟩
    have h1' := hi.mp h1
    refine ⟨h1', ?_⟩
    rw [← hg c h1']
    exact h2
  · rintro ⟨h1, h2⟩
    refine ⟨hi.mpr h1, ?_⟩
    rw [hg c h1]
    exact h2

theorem bfsLoop_congr {st st' : GameState} (hw : st'.gridWidth = st.gridWidth)
    (hh : st'.gridHeight = st.gridHeight)
    (hg : ∀ c, st.isInsideGrid c → st'.grid c = st.grid c) :
    ∀ (queue : List (ℤ × ℤ)) (visited : Finset (ℤ × ℤ)) (area : ℕ),
      bfsLoop st' queue visited area = bfsLoop st queue visited area := by
  intro queue visited area
  induction queue, visited, area using bfsLoop.induct st with
  | case1 visited area => simp [bfsLoop]
  | case2 current rest visited area hcond ih =>
    have hcond' : current ∈ visited ∨ ¬ st'.isInsideGrid current ∨
        st'.grid current ≠ 0 := by
      rcases hcond with h | h | h
      · exact Or.inl h
      · exact Or.inr (Or.inl (fun hc => h ((isInsideGrid_congr hw hh current).mp hc)))
      · by_cases hi : st.isInsideGrid current
        · refine Or.inr (Or.inr ?_)
          rw [hg current hi]
          exact h
        · exact Or.inr (Or.inl (fun hc => hi ((isInsideGrid_congr hw hh current).mp hc)))
    simp only [bfsLoop]
    rw [if_pos hcond, if_pos hcond']
    exact ih
  | case3 current rest visited area hcond ih =>
    have hc := hcond
    push_neg at hc
    obtain ⟨hnv, hin, hg0⟩ := hc
    have hcond' : ¬ (current ∈ visited ∨ ¬ st'.isInsideGrid current ∨
        st'.grid current ≠ 0) := by
      push_neg
      refine ⟨hnv, (isInsideGrid_congr hw hh current).mpr hin, ?_⟩
      rw [hg current hin]
      exact hg0
    simp only [bfsLoop]
    rw [if_neg hcond, if_neg hcond']
    exact ih

theorem calculateAccessibleArea_congr {st st' : GameState}
    (hw : st'.gridWidth = st.gridWidth) (hh : st'.gridHeight = st.gridHeight)
    (hg : ∀ c, st.isInsideGrid c → st'.grid c = st.grid c) :
    ∀ start, calculateAccessibleArea st' start = calculateAccessibleArea st start := by
  intro start
  unfold calculateAccessibleArea
  exact bfsLoop_congr hw hh hg _ _ _

theorem opponentCandidates_congr {st st' : GameState}
    (hw : st'.gridWidth = st.gridWidth) (hh : st'.gridHeight = st.gridHeight)
    (hg : ∀ c, st.isInsideGrid c → st'.grid c = st.grid c) :
    ∀ head, opponentCandidates st' head = opponentCandidates st head := by
  intro head
  unfold opponentCandidates
  apply List.filterMap_congr
  intro d _
  have hp := passableCell_congr hw hh hg (head + getDirectionVector d)
  have ha := calculateAccessibleArea_congr hw hh hg (head + getDirectionVector d)
  by_cases h : passableCell st (head + getDirectionVector d)
  · rw [if_pos h, if_pos (hp.mpr h), ha]
  · rw [if_neg h, if_neg (fun hc => h (hp.mp hc))]

theorem predictOpponentMove_congr {st st' : GameState}
    (hw : st'.gridWidth = st.gridWidth) (hh : st'.gridHeight = st.gridHeight)
    (hg : ∀ c, st.isInsideGrid c → st'.grid c = st.grid c) :
    ∀ head, predictOpponentMove st' head = predictOpponentMove st head := by
  intro head
  rw [predictOpponentMove_eq, predictOpponentMove_eq,
    opponentCandidates_congr hw hh hg head]

/-- C8: every operation of the engine reads the grid occupancy only at cells
already checked to be inside bounds: move validation, the flood fill and
opponent prediction are unchanged under arbitrary modification of occupancy
values outside the bounds — even though the flood-fill queue transiently
holds out-of-bounds cells, they are discarded before any occupancy lookup. -/
theorem occupancy_read_only_inside (st st' : GameState)
    (hw : st'.gridWidth = st.gridWidth) (hh : st'.gridHeight = st.gridHeight)
    (hg : ∀ c, st.isInsideGrid c → st'.grid c = st.grid c) :
    (∀ pos d, is_valid_move st' pos d ↔ is_valid_move st pos d) ∧
      (∀ start, calculateAccessibleArea st' start = calculateAccessibleArea st start) ∧
      (∀ head, predictOpponentMove st' head = predictOpponentMove st head) := by
  refine ⟨?_, calculateAccessibleArea_congr hw hh hg,
    predictOpponentMove_congr hw hh hg⟩
  intro pos d
  exact passableCell_congr hw hh hg (pos + getDirectionVector d)

/-- The 2×2 empty grid with garbage occupancy on every cell of column index
2 and beyond — all of it out of bounds. -/
def gridEmpty2Junk : GameState := ⟨2, 2, fun c => if 2 ≤ c.1 then 5 else 0, []⟩

/-- Witness for C8: junk occupancy on out-of-bounds cells does not change the
flood-fill count from the concrete inside cell (0, 0). -/
theorem occupancy_read_only_inside_witness :
    (∀ c, gridEmpty2.isInsideGrid c → gridEmpty2Junk.grid c = gridEmpty2.grid c) ∧
      calculateAccessibleArea gridEmpty2Junk (0, 0) =
        calculateAccessibleArea gridEmpty2 (0, 0) := by
  have hg : ∀ c, gridEmpty2.isInsideGrid c → gridEmpty2Junk.grid c = gridEmpty2.grid c := by
    intro c hc
    obtain ⟨h1, h2, h3, h4⟩ := hc
    have h2' : c.1 < 2 := h2
    show (if 2 ≤ c.1 then (5 : ℤ) else 0) = 0
    rw [if_neg (by omega)]
  exact ⟨hg, (occupancy_read_only_inside gridEmpty2 gridEmpty2Junk rfl rfl hg).2.1 (0, 0)⟩

end Cycles
